import Mathlib

/-!
Verification of the DOM-coverage analyzer
(`src/packages/svelte/analysis/svelte-dom-cover.py`).

The Python source is shallowly embedded: strings are `String` / `List Char`,
Python sets are `Finset String`, Python dicts are association lists, Python
tuples are `List`s, and `sorted` over a set is `Finset.sort (· ≤ ·)`.
Fallible functions return `Option`.
-/

namespace DomCover

/-! ## String helpers: Python's substring test `pat in text` -/

/-- `listPrefixOf p c = true` iff `p` is an initial segment of `c`. -/
def listPrefixOf : List Char → List Char → Bool
  | [], _ => true
  | _ :: _, [] => false
  | p :: ps, c :: cs => p == c && listPrefixOf ps cs

/-- Python's `pat in text` over character lists: some suffix starts with `pat`. -/
def listContainsSub (pat : List Char) : List Char → Bool
  | [] => pat.isEmpty
  | c :: cs => listPrefixOf pat (c :: cs) || listContainsSub pat cs

/-- Python's `pat in text` for strings. -/
def subStr (pat text : String) : Bool :=
  listContainsSub pat.toList text.toList

/-! ## The DOM catalog (`DOM_METHODS`, `DOM_ATTRIBUTES`, `DOCUMENT_WINDOW_ATTRS`,
`ALL_DOM_PATTERNS`), transcribed in source order. -/

def DOM_METHODS : List String := [
  "createElement", "createElementNS", "createTextNode", "createComment",
  "createDocumentFragment", "importNode", "querySelector", "querySelectorAll",
  "getElementById", "getElementsByClassName", "getElementsByTagName",
  "appendChild", "removeChild", "replaceChild", "insertBefore",
  "cloneNode", "contains", "hasChildNodes",
  "append", "prepend", "before", "after", "remove", "replaceWith",
  "setAttribute", "setAttributeNS", "getAttribute", "removeAttribute",
  "hasAttribute", "toggleAttribute",
  "addEventListener", "removeEventListener", "dispatchEvent",
  "focus", "blur", "click", "scroll", "scrollIntoView",
  "getBoundingClientRect", "getClientRects",
  "matches", "closest"]

def DOM_ATTRIBUTES : List String := [
  "value", "checked", "selected", "disabled", "readonly", "required",
  "autofocus", "placeholder", "maxLength", "minLength", "pattern",
  "accept", "multiple", "files", "form", "name", "type",
  "id", "className", "classList", "title", "lang", "dir",
  "hidden", "tabIndex", "accessKey", "contentEditable",
  "draggable", "spellcheck", "translate",
  "innerHTML", "outerHTML", "textContent", "innerText",
  "src", "href", "alt", "width", "height",
  "currentTime", "duration", "paused", "muted", "volume",
  "playbackRate", "ended", "seeking", "readyState",
  "style", "offsetWidth", "offsetHeight", "offsetTop", "offsetLeft",
  "clientWidth", "clientHeight", "clientTop", "clientLeft",
  "scrollWidth", "scrollHeight", "scrollTop", "scrollLeft",
  "parentNode", "parentElement", "childNodes", "children",
  "firstChild", "lastChild", "nextSibling", "previousSibling",
  "firstElementChild", "lastElementChild",
  "nextElementSibling", "previousElementSibling",
  "nodeType", "nodeName", "nodeValue", "ownerDocument",
  "dataset"]

def DOCUMENT_WINDOW_ATTRS : List String := [
  "activeElement", "body", "head", "documentElement",
  "innerWidth", "innerHeight", "outerWidth", "outerHeight",
  "scrollX", "scrollY", "pageXOffset", "pageYOffset"]

def ALL_DOM_PATTERNS : List String :=
  DOM_METHODS ++ DOM_ATTRIBUTES ++ DOCUMENT_WINDOW_ATTRS

/-- The construction / query methods routed to the `document.` namespace
(first branch of `canonicalize_dom_call`). -/
def DOC_CONSTRUCT_QUERY : List String := [
  "createElement", "createElementNS", "createTextNode",
  "createComment", "createDocumentFragment", "importNode",
  "querySelector", "querySelectorAll", "getElementById",
  "getElementsByClassName", "getElementsByTagName"]

/-- The size/scroll globals routed to the `window.` namespace. -/
def WINDOW_GLOBALS : List String := [
  "innerWidth", "innerHeight", "outerWidth", "outerHeight",
  "scrollX", "scrollY", "pageXOffset", "pageYOffset"]

/-- Node-level methods and properties routed to the `node.` namespace. -/
def NODE_PATTERNS : List String := [
  "appendChild", "removeChild", "replaceChild", "insertBefore",
  "cloneNode", "contains", "hasChildNodes", "append", "prepend",
  "before", "after", "remove", "replaceWith",
  "firstChild", "lastChild", "nextSibling", "previousSibling",
  "firstElementChild", "lastElementChild",
  "nextElementSibling", "previousElementSibling",
  "parentNode", "parentElement", "childNodes", "children",
  "nodeType", "nodeName", "nodeValue", "ownerDocument"]

/-- `canonicalize_dom_call`: the first catalog entry (in `ALL_DOM_PATTERNS`
order) occurring as a substring of the input wins; it is then mapped to a
namespaced canonical identifier, or `none` when no entry matches. -/
def canonicalize_dom_call (text : String) : Option String :=
  match ALL_DOM_PATTERNS.find? (fun p => subStr p text) with
  | none => none
  | some matching_pattern =>
    if DOC_CONSTRUCT_QUERY.contains matching_pattern then
      some ("document." ++ matching_pattern)
    else if DOCUMENT_WINDOW_ATTRS.contains matching_pattern then
      if WINDOW_GLOBALS.contains matching_pattern then
        some ("window." ++ matching_pattern)
      else
        some ("document." ++ matching_pattern)
    else if NODE_PATTERNS.contains matching_pattern then
      some ("node." ++ matching_pattern)
    else
      some ("element." ++ matching_pattern)

/-! ## `CallTree` (a `NamedTuple` in the source) and
the cache document shape used by `to_dict` / `from_dict`. -/

/-- `CallTree(function, direct_dom, function_calls)`: an immutable recursive
tree; `direct_dom` is the tuple of canonical DOM operations the function
performs directly, `function_calls` the tuple of child trees. -/
inductive CallTree where
  | mk (function : String) (direct_dom : List String)
       (function_calls : List CallTree)

def CallTree.function : CallTree → String
  | .mk f _ _ => f

def CallTree.direct_dom : CallTree → List String
  | .mk _ d _ => d

def CallTree.function_calls : CallTree → List CallTree
  | .mk _ _ cs => cs

/-- The shape of one entry of the persisted cache document
(`dom-cover.json`): a `function` name, a `direct_dom` list, and a
`function_calls` list of nested documents of the same shape. -/
inductive CacheDoc where
  | mk (function : String) (direct_dom : List String)
       (function_calls : List CacheDoc)

/-- `CallTree.to_dict`: serialize a tree to the cache document shape
(tuples become lists). -/
def CallTree.to_dict : CallTree → CacheDoc
  | .mk f d cs =>
    .mk f d (cs.attach.map (fun x => CallTree.to_dict x.1))
termination_by t => sizeOf t
decreasing_by
  have h := List.sizeOf_lt_of_mem x.2
  simp only [CallTree.mk.sizeOf_spec]
  omega

/-- `CallTree.from_dict`: rebuild a tree from a cache document
(lists become tuples). -/
def CallTree.from_dict : CacheDoc → CallTree
  | .mk f d cs =>
    .mk f d (cs.attach.map (fun x => CallTree.from_dict x.1))
termination_by t => sizeOf t
decreasing_by
  have h := List.sizeOf_lt_of_mem x.2
  simp only [CacheDoc.mk.sizeOf_spec]
  omega

/-! ## `extract_function_body`

The regex `function <name>\s*\([^)]*\)\s*\{` is deterministic (each greedy
piece is followed by a character it can never match), so it is embedded as a
direct matcher over character lists; `re.search` semantics is the leftmost
position where the matcher succeeds. -/

/-- Python's `\s` character class. -/
def pySpace (c : Char) : Bool :=
  c == ' ' || c == '\t' || c == '\n' || c == '\r' || c == '\x0b' || c == '\x0c'

/-- Match `function <name>\s*\([^)]*\)\s*\{` at the head of `cs`; return the
length of the match (so the final `'{'` sits at index `len - 1`). -/
def matchBodyPatternAt (cs : List Char) (name : List Char) : Option Nat :=
  let pre := "function ".toList ++ name
  if cs.take pre.length = pre then
    let r1 := cs.drop pre.length
    let s1 := (r1.takeWhile pySpace).length
    match r1.drop s1 with
    | '(' :: r3 =>
      let a := (r3.takeWhile (fun c => c ≠ ')')).length
      match r3.drop a with
      | ')' :: r4 =>
        let s2 := (r4.takeWhile pySpace).length
        match r4.drop s2 with
        | '{' :: _ => some (pre.length + s1 + 1 + a + 1 + s2 + 1)
        | _ => none
      | _ => none
    | _ => none
  else none

/-- `re.search` for the body pattern: index of the `'{'` of the leftmost
match (`match.end() - 1` in the source), or `none`. -/
def findBodyStart : List Char → List Char → Option Nat
  | [], name => (matchBodyPatternAt [] name).map (fun len => len - 1)
  | c :: rest, name =>
    match matchBodyPatternAt (c :: rest) name with
    | some len => some (len - 1)
    | none => (findBodyStart rest name).map (· + 1)

/-- The brace-counting loop of `extract_function_body`: scan `cs` with
current depth `bc`; return how many characters are consumed up to and
including the brace that brings the depth to zero. -/
def braceScan : List Char → Nat → Option Nat
  | [], _ => none
  | c :: rest, bc =>
    if c = '{' then (braceScan rest (bc + 1)).map (· + 1)
    else if c = '}' then
      if bc = 1 then some 1 else (braceScan rest (bc - 1)).map (· + 1)
    else (braceScan rest bc).map (· + 1)

/-- `extract_function_body(content, func_name)`: locate
`function <name>(...){` and return the brace-balanced body
`content[start : start + i + 1]`, or `None`. -/
def extract_function_body (content : List Char) (name : List Char) :
    Option (List Char) :=
  match findBodyStart content name with
  | none => none
  | some start =>
    match braceScan (content.drop (start + 1)) 1 with
    | none => none
    | some i => some ((content.drop start).take (i + 1))

/-! ## `CallGraph` and `build_graph`

Python dicts are association lists with overwriting insert; Python sets are
`Finset String`.  The external syntax-tree collaborator (`extract_calls` /
ast-grep) is a parameter, per the spec's external-interface boundary; file
contents are taken after `strip_comments`. -/

/-- Overwriting insert into an association list (Python `d[k] = v`). -/
def dictInsert {α : Type} (m : List (String × α)) (k : String) (v : α) :
    List (String × α) :=
  match m with
  | [] => [(k, v)]
  | (k0, v0) :: rest =>
    if k0 = k then (k, v) :: rest else (k0, v0) :: dictInsert rest k v

/-- Python `d.get(k, default)`. -/
def dictGetD {α : Type} (m : List (String × α)) (k : String) (dflt : α) : α :=
  match m with
  | [] => dflt
  | (k0, v0) :: rest => if k0 = k then v0 else dictGetD rest k dflt

/-- Python `k in d` / `d.get(k)` returning an option. -/
def dictFind {α : Type} (m : List (String × α)) (k : String) : Option α :=
  match m with
  | [] => none
  | (k0, v0) :: rest => if k0 = k then some v0 else dictFind rest k

/-- `CallGraph`: exported root names, all known function names, per-function
raw referenced names (`calls`), per-function canonical DOM operations
(`dom_calls`). -/
structure CallGraph where
  exports : Finset String
  all_funcs : Finset String
  calls : List (String × Finset String)
  dom_calls : List (String × Finset String)

/-- `[a-zA-Z_$]`, the leading character class of the definition regex. -/
def identStart (c : Char) : Bool :=
  c.isAlpha || c == '_' || c == '$'

/-- `[a-zA-Z0-9_$]`, the trailing character class of the definition regex. -/
def identChar (c : Char) : Bool :=
  c.isAlphanum || c == '_' || c == '$'

/-- Match `function\s+([a-zA-Z_$][a-zA-Z0-9_$]*)\s*\(` at the head of `cs`;
return the consumed length and the captured name. -/
def matchFunctionAt (cs : List Char) : Option (Nat × String) :=
  if cs.take 8 = "function".toList then
    let r1 := cs.drop 8
    let s1 := (r1.takeWhile pySpace).length
    if s1 = 0 then none
    else
      match r1.drop s1 with
      | c :: r2 =>
        if identStart c then
          let restId := r2.takeWhile identChar
          let r3 := r2.drop restId.length
          let s2 := (r3.takeWhile pySpace).length
          match r3.drop s2 with
          | '(' :: _ =>
            some (8 + s1 + 1 + restId.length + s2 + 1, ⟨c :: restId⟩)
          | _ => none
        else none
      | [] => none
  else none

/-- Match `(?:export\s+)?function\s+([a-zA-Z_$][a-zA-Z0-9_$]*)\s*\(` at the
head of `cs` (the greedy optional `export\s+` group backtracks to empty when
the rest fails, exactly as the regex engine does). -/
def matchDefAt (cs : List Char) : Option (Nat × String) :=
  if cs.take 6 = "export".toList then
    let r := cs.drop 6
    let s := (r.takeWhile pySpace).length
    if 1 ≤ s then
      match matchFunctionAt (r.drop s) with
      | some (len, nm) => some (6 + s + len, nm)
      | none => matchFunctionAt cs
    else matchFunctionAt cs
  else matchFunctionAt cs

/-- `re.finditer` over the definition regex: scan left to right, skipping
past each non-overlapping match, collecting the captured function names.
Structured over a character-count fuel so that it is structurally recursive;
every step consumes at least one character, so a fuel of `cs.length` (as used
by `findDefNames`) never runs out before the input does. -/
def findDefNamesAux : Nat → List Char → List String
  | 0, _ => []
  | _ + 1, [] => []
  | fuel + 1, c :: rest =>
    match matchDefAt (c :: rest) with
    | some (len, nm) => nm :: findDefNamesAux fuel (rest.drop (len - 1))
    | none => findDefNamesAux fuel rest

def findDefNames (cs : List Char) : List String :=
  findDefNamesAux cs.length cs

/-- The set `{canonicalize_dom_call(c) | c ∈ calls, canonical result}` built
inside `build_graph`. -/
def canonDomSet (calls : Finset String) : Finset String :=
  calls.biUnion (fun c =>
    match canonicalize_dom_call c with
    | some d => {d}
    | none => ∅)

/-- The body of the per-definition loop of `build_graph`: record the name in
`all_funcs`; when a body is found, record its raw calls and canonical DOM
calls. -/
def graphAddFunc (extract_calls : List Char → Finset String)
    (content : List Char) (g : CallGraph) (func_name : String) : CallGraph :=
  let g1 := { g with all_funcs := insert func_name g.all_funcs }
  match extract_function_body content func_name.toList with
  | none => g1
  | some body =>
    let calls := extract_calls body
    { g1 with
      calls := dictInsert g1.calls func_name calls,
      dom_calls := dictInsert g1.dom_calls func_name (canonDomSet calls) }

/-- Process the function definitions found in one file, in scan order
(the inner loop of `build_graph`). -/
def buildGraphFile (extract_calls : List Char → Finset String)
    (content : List Char) (g : CallGraph) : CallGraph :=
  (findDefNames content).foldl (graphAddFunc extract_calls content) g

/-- `build_graph`: fold over all (comment-stripped) source files. -/
def build_graph (files : List (List Char))
    (extract_calls : List Char → Finset String)
    (exports : Finset String) : CallGraph :=
  files.foldl (fun g content => buildGraphFile extract_calls content g)
    { exports := exports, all_funcs := ∅, calls := [], dom_calls := [] }

/-! ## `build_call_tree` and the tree analytics
(`calc_dom_distance`, `flatten_tree`, `extract_all_paths`). -/

/-- `graph.calls.get(func, set())`. -/
def callsGet (g : CallGraph) (f : String) : Finset String :=
  dictGetD g.calls f ∅

/-- `graph.dom_calls.get(func, set())`. -/
def domCallsGet (g : CallGraph) (f : String) : Finset String :=
  dictGetD g.dom_calls f ∅

/-- The `is_dom_call` helper inside `build_call_tree`: any catalog pattern
occurs as a substring. -/
def is_dom_call (call : String) : Bool :=
  ALL_DOM_PATTERNS.any (fun p => subStr p call)

/-- The child iteration of `build_call_tree`: sorted raw calls, keeping only
known functions that are not themselves DOM operations. -/
def childNames (g : CallGraph) (f : String) : List String :=
  ((callsGet g f).sort (· ≤ ·)).filter
    (fun c => decide (c ∈ g.all_funcs) && !is_dom_call c)

/-- `build_call_tree(graph, func, visited)`: a leaf stub for a function seen
on this branch, otherwise a node with sorted direct DOM operations and one
child per sorted eligible call, each child built with a copy of the branch's
visited set enlarged by the current function. -/
def build_call_tree (g : CallGraph) (func : String) (visited : Finset String) :
    CallTree :=
  if func ∈ visited then CallTree.mk func [] []
  else
    CallTree.mk func ((domCallsGet g func).sort (· ≤ ·))
      ((childNames g func).attach.map (fun c =>
        build_call_tree g c.1 (insert func visited)))
termination_by ((insert func g.all_funcs) \ visited).card
decreasing_by
  have hc : c.1 ∈ g.all_funcs := by
    have h2 := c.2
    simp only [childNames, List.mem_filter, Bool.and_eq_true,
      decide_eq_true_eq] at h2
    exact h2.2.1
  have hf : func ∉ visited := by assumption
  rw [Finset.insert_eq_self.mpr hc]
  apply Finset.card_lt_card
  rw [Finset.ssubset_def]
  constructor
  · intro x hx
    simp only [Finset.mem_sdiff, Finset.mem_insert] at hx ⊢
    tauto
  · intro hsub
    have hmem : func ∈ (insert func g.all_funcs) \ visited := by
      simp [Finset.mem_sdiff, Finset.mem_insert, hf]
    have hf2 := hsub hmem
    simp only [Finset.mem_sdiff, Finset.mem_insert] at hf2
    tauto

/-- Number of nodes on the longest branch of a tree (the recursion depth
that `build_call_tree` needed to produce it). -/
def treeDepth : CallTree → Nat
  | .mk _ _ cs => 1 + (cs.attach.map (fun x => treeDepth x.1)).foldr max 0
termination_by t => sizeOf t
decreasing_by
  have h := List.sizeOf_lt_of_mem x.2
  simp only [CallTree.mk.sizeOf_spec]
  omega

/-- `flatten_tree`: all DOM calls in the tree (direct set union over all
children, recursively). -/
def flatten_tree : CallTree → Finset String
  | .mk _ d cs =>
    d.toFinset ∪ (cs.attach.map (fun x => flatten_tree x.1)).foldr (· ∪ ·) ∅
termination_by t => sizeOf t
decreasing_by
  have h := List.sizeOf_lt_of_mem x.2
  simp only [CallTree.mk.sizeOf_spec]
  omega

/-- `extract_all_paths`: one path per node with direct DOM operations,
then recursion into the children with the extended prefix. -/
def extract_all_paths (t : CallTree) (current_path : List String) :
    List (List String) :=
  match t with
  | .mk f d cs =>
    (if d ≠ [] then [current_path ++ [f]] else []) ++
      (cs.attach.map (fun c =>
        extract_all_paths c.1 (current_path ++ [f]))).flatten
termination_by sizeOf t
decreasing_by
  have h := List.sizeOf_lt_of_mem c.2
  simp only [CallTree.mk.sizeOf_spec]
  omega

/-- `calc_dom_distance`: 0 with any direct DOM, `⊤` at a childless dead end,
otherwise one more than the minimum child distance. -/
def calc_dom_distance : CallTree → ℕ∞
  | .mk _ d cs =>
    if d ≠ [] then 0
    else if cs.isEmpty then ⊤
    else 1 + (cs.attach.map (fun x => calc_dom_distance x.1)).foldr min ⊤
termination_by t => sizeOf t
decreasing_by
  have h := List.sizeOf_lt_of_mem x.2
  simp only [CallTree.mk.sizeOf_spec]
  omega

/-! ## `SetCoverInput`, `prepare_solver_input` and the covering constraints
posted by `solve_set_cover`. -/

/-- `SetCoverInput`: pre-processed input for the set cover solver. -/
structure SetCoverInput where
  ast_candidates : List String
  dom_candidates : List String
  path_constraints : List (List String)
  leaf_dom_map : List (String × Finset String)
  ast_scores : List (String × ℕ)

/-- `collect_funcs_in_paths`: every function appearing in any path of any
entry of the paths dict. -/
def collect_funcs_in_paths (paths : List (String × List (List String))) :
    Finset String :=
  (((paths.map (fun p => p.2)).flatten).flatten).toFinset

/-- `[path for path_list in paths.values() for path in path_list]`. -/
def allPathsOf (paths : List (String × List (List String))) :
    List (List String) :=
  (paths.map (fun p => p.2)).flatten

/-- `set.union(*coverage.values(), set())`. -/
def coverageUnion (coverage : List (String × Finset String)) : Finset String :=
  (coverage.map (fun p => p.2)).foldr (· ∪ ·) ∅

/-- One step of the dict comprehension
`{path[-1]: coverage.get(path[-1], set()) for path in all_paths if path}`. -/
def leafDomFold (coverage : List (String × Finset String))
    (m : List (String × Finset String)) (path : List String) :
    List (String × Finset String) :=
  match path.getLast? with
  | some leaf => dictInsert m leaf (dictGetD coverage leaf ∅)
  | none => m

/-- `prepare_solver_input(paths, coverage, dom_distances, ast_funcs,
include_dom)`: candidates, per-path constraints, the hybrid terminal-to-DOM
map, and tie-break scores. -/
def prepare_solver_input (paths : List (String × List (List String)))
    (coverage : List (String × Finset String))
    (dom_distances : List (String × ℕ))
    (ast_funcs : Finset String) (include_dom : Bool) : SetCoverInput :=
  let ast_candidates :=
    ((collect_funcs_in_paths paths) ∩ ast_funcs).sort (· ≤ ·)
  let all_paths := allPathsOf paths
  { ast_candidates := ast_candidates
    dom_candidates :=
      if include_dom then (coverageUnion coverage).sort (· ≤ ·) else []
    path_constraints :=
      all_paths.map (fun path => path.filter (fun f => f ∈ ast_candidates))
    leaf_dom_map :=
      if include_dom then all_paths.foldl (leafDomFold coverage) [] else []
    ast_scores :=
      ast_candidates.map (fun f => (f, dictGetD dom_distances f 0)) }

/-- The DOM-operation variables admitted alongside a posted constraint in
`solve_set_cover`: `leaf_dom_map.get(path[-1] if path else None, set())`,
where `path` is the already-filtered constraint. -/
def dom_alternatives (inp : SetCoverInput) (constraint : List String) :
    Finset String :=
  match constraint.getLast? with
  | none => ∅
  | some leaf => dictGetD inp.leaf_dom_map leaf ∅

/-- One posted covering constraint is satisfied by a selection: some AST
candidate on the (filtered) path is selected, or some admitted DOM
alternative is selected. -/
def constraintHolds (inp : SetCoverInput) (selAst selDom : Finset String)
    (constraint : List String) : Prop :=
  (∃ f ∈ constraint, f ∈ inp.ast_candidates ∧ f ∈ selAst) ∨
  (∃ d ∈ dom_alternatives inp constraint, d ∈ selDom)

/-- The binary covering program posted by `solve_set_cover` has a feasible
point: some selection satisfies every posted constraint. -/
def feasibleInput (inp : SetCoverInput) : Prop :=
  ∃ selAst selDom : Finset String,
    ∀ c ∈ inp.path_constraints, constraintHolds inp selAst selDom c

/-! ## Concrete example data used to instantiate the theorems -/

/-- A graph where two sibling branches (`a`, `b`) both reach `h`:
`r` calls `a` and `b`; each of `a`, `b` calls `h`; `h` touches the DOM. -/
def gSib : CallGraph :=
  { exports := {"r"}
    all_funcs := {"r", "a", "b", "h"}
    calls := [("r", {"a", "b"}), ("a", {"h"}), ("b", {"h"})]
    dom_calls := [("h", {"element.focus"})] }

/-- A graph whose export `r` touches the DOM directly and also calls the
internal DOM-touching function `t`. -/
def gCov : CallGraph :=
  { exports := {"r"}
    all_funcs := {"r", "t"}
    calls := [("r", {"t"})]
    dom_calls := [("r", {"element.click"}), ("t", {"element.focus"})] }

/-! ## Supporting lemmas -/

theorem sizeOf_lt_of_mem_callTree {c : CallTree} {f : String}
    {d : List String} {cs : List CallTree} (h : c ∈ cs) :
    sizeOf c < sizeOf (CallTree.mk f d cs) := by
  have := List.sizeOf_lt_of_mem h
  simp only [CallTree.mk.sizeOf_spec]
  omega

theorem sizeOf_lt_of_mem_cacheDoc {c : CacheDoc} {f : String}
    {d : List String} {cs : List CacheDoc} (h : c ∈ cs) :
    sizeOf c < sizeOf (CacheDoc.mk f d cs) := by
  have := List.sizeOf_lt_of_mem h
  simp only [CacheDoc.mk.sizeOf_spec]
  omega

theorem from_dict_to_dict : ∀ t : CallTree,
    CallTree.from_dict (CallTree.to_dict t) = t
  | .mk f d cs => by
    simp only [CallTree.to_dict, CallTree.from_dict, List.attach_map_val,
      List.map_map, CallTree.mk.injEq, true_and]
    have h : ∀ c ∈ cs, (CallTree.from_dict ∘ CallTree.to_dict) c = id c := by
      intro c hc
      simpa using from_dict_to_dict c
    rw [List.map_congr_left h, List.map_id]
termination_by t => sizeOf t
decreasing_by exact sizeOf_lt_of_mem_callTree hc

theorem to_dict_from_dict : ∀ d : CacheDoc,
    CallTree.to_dict (CallTree.from_dict d) = d
  | .mk f dd cs => by
    simp only [CallTree.from_dict, CallTree.to_dict, List.attach_map_val,
      List.map_map, CacheDoc.mk.injEq, true_and]
    have h : ∀ c ∈ cs, (CallTree.to_dict ∘ CallTree.from_dict) c = id c := by
      intro c hc
      simpa using to_dict_from_dict c
    rw [List.map_congr_left h, List.map_id]
termination_by d => sizeOf d
decreasing_by exact sizeOf_lt_of_mem_cacheDoc hc

theorem braceScan_some : ∀ (cs : List Char) (bc i : Nat), 1 ≤ bc →
    braceScan cs bc = some i →
    1 ≤ i ∧ i ≤ cs.length ∧
    (∃ pre, cs.take i = pre ++ ['}']) ∧
    bc + (cs.take i).count '{' = (cs.take i).count '}' ∧
    ∀ j < i, (cs.take j).count '}' < bc + (cs.take j).count '{'
  | [], bc, i, _, h => by simp [braceScan] at h
  | c :: rest, bc, i, hbc, h => by
    rw [braceScan] at h
    by_cases h1 : c = '{'
    · simp only [if_pos h1, Option.map_eq_some'] at h
      obtain ⟨i0, hscan, hi⟩ := h
      obtain ⟨h1i, h2i, ⟨pre, hpre⟩, h4i, h5i⟩ :=
        braceScan_some rest (bc + 1) i0 (by omega) hscan
      subst hi h1
      refine ⟨by omega, by simp; omega, ⟨'{' :: pre, ?_⟩, ?_, ?_⟩
      · simp [List.take_succ_cons, hpre]
      · simp [List.take_succ_cons, List.count_cons, hpre] at h4i ⊢
        omega
      · intro j hj
        match j with
        | 0 => simpa using hbc
        | j0 + 1 =>
          have := h5i j0 (by omega)
          simp [List.take_succ_cons, List.count_cons]
          omega
    · by_cases h2 : c = '}'
      · by_cases h3 : bc = 1
        · simp only [if_neg h1, if_pos h2, if_pos h3, Option.some.injEq] at h
          subst h h2 h3
          refine ⟨by omega, by simp, ⟨[], by simp⟩, by simp, ?_⟩
          intro j hj
          interval_cases j
          simp
        · simp only [if_neg h1, if_pos h2, if_neg h3, Option.map_eq_some'] at h
          obtain ⟨i0, hscan, hi⟩ := h
          obtain ⟨h1i, h2i, ⟨pre, hpre⟩, h4i, h5i⟩ :=
            braceScan_some rest (bc - 1) i0 (by omega) hscan
          subst hi h2
          refine ⟨by omega, by simp; omega, ⟨'}' :: pre, ?_⟩, ?_, ?_⟩
          · simp [List.take_succ_cons, hpre]
          · simp [List.take_succ_cons, List.count_cons, hpre] at h4i ⊢
            omega
          · intro j hj
            match j with
            | 0 => simpa using hbc
            | j0 + 1 =>
              have := h5i j0 (by omega)
              simp [List.take_succ_cons, List.count_cons]
              omega
      · simp only [if_neg h1, if_neg h2, Option.map_eq_some'] at h
        obtain ⟨i0, hscan, hi⟩ := h
        obtain ⟨h1i, h2i, ⟨pre, hpre⟩, h4i, h5i⟩ :=
          braceScan_some rest bc i0 hbc hscan
        subst hi
        refine ⟨by omega, by simp; omega, ⟨c :: pre, ?_⟩, ?_, ?_⟩
        · simp [List.take_succ_cons, hpre]
        · simp [List.take_succ_cons, List.count_cons, h1, h2, hpre] at h4i ⊢
          omega
        · intro j hj
          match j with
          | 0 => simpa using hbc
          | j0 + 1 =>
            have := h5i j0 (by omega)
            simp [List.take_succ_cons, List.count_cons, h1, h2]
            omega

theorem braceScan_none_iff : ∀ (cs : List Char) (bc : Nat), 1 ≤ bc →
    (braceScan cs bc = none ↔
      ∀ i ≤ cs.length, (cs.take i).count '}' < bc + (cs.take i).count '{')
  | [], bc, hbc => by
    simp only [braceScan, List.length_nil, Nat.le_zero, true_iff]
    intro i hi
    subst hi
    simpa using hbc
  | c :: rest, bc, hbc => by
    rw [braceScan]
    by_cases h1 : c = '{'
    · rw [if_pos h1, Option.map_eq_none', braceScan_none_iff rest (bc + 1) (by omega)]
      subst h1
      constructor
      · intro hr i hi
        match i with
        | 0 => simpa using hbc
        | j + 1 =>
          have := hr j (by simpa using hi)
          simp [List.take_succ_cons, List.count_cons]
          omega
      · intro hall j hj
        have := hall (j + 1) (by simpa using hj)
        simp [List.take_succ_cons, List.count_cons] at this
        omega
    · by_cases h2 : c = '}'
      · by_cases h3 : bc = 1
        · rw [if_neg h1, if_pos h2, if_pos h3]
          subst h2 h3
          simp only [reduceCtorEq, false_iff, not_forall]
          refine ⟨1, by simp, ?_⟩
          simp
        · rw [if_neg h1, if_pos h2, if_neg h3, Option.map_eq_none',
            braceScan_none_iff rest (bc - 1) (by omega)]
          subst h2
          constructor
          · intro hr i hi
            match i with
            | 0 => simpa using hbc
            | j + 1 =>
              have := hr j (by simpa using hi)
              simp [List.take_succ_cons, List.count_cons]
              omega
          · intro hall j hj
            have := hall (j + 1) (by simpa using hj)
            simp [List.take_succ_cons, List.count_cons] at this
            omega
      · rw [if_neg h1, if_neg h2, Option.map_eq_none',
          braceScan_none_iff rest bc (by omega)]
        constructor
        · intro hr i hi
          match i with
          | 0 => simpa using hbc
          | j + 1 =>
            have := hr j (by simpa using hi)
            simp only [List.take_succ_cons, List.count_cons]
            simp only [beq_iff_eq, h1, h2, if_false]
            omega
        · intro hall j hj
          have := hall (j + 1) (by simpa using hj)
          simp only [List.take_succ_cons, List.count_cons, beq_iff_eq, h1, h2,
            if_false] at this
          omega

theorem matchBodyPatternAt_head (cs name : List Char) (len : Nat)
    (h : matchBodyPatternAt cs name = some len) :
    1 ≤ len ∧ (cs.drop (len - 1)).head? = some '{' := by
  simp only [matchBodyPatternAt] at h
  split at h
  case isFalse => simp at h
  case isTrue hp =>
    split at h <;> try exact Option.noConfusion h
    next r3 e1 =>
      split at h <;> try exact Option.noConfusion h
      next r4 e2 =>
        split at h <;> try exact Option.noConfusion h
        next t5 e3 =>
          rw [Option.some.injEq] at h
          constructor
          · omega
          · have d1 : cs.drop (("function ".toList ++ name).length +
                ((cs.drop ("function ".toList ++ name).length).takeWhile
                  pySpace).length) = '(' :: r3 := by
              rw [← List.drop_drop]
              exact e1
            have d2 : cs.drop (("function ".toList ++ name).length +
                ((cs.drop ("function ".toList ++ name).length).takeWhile
                  pySpace).length + 1) = r3 := by
              rw [← List.drop_drop, d1, List.drop_succ_cons, List.drop_zero]
            have d3 : cs.drop (("function ".toList ++ name).length +
                ((cs.drop ("function ".toList ++ name).length).takeWhile
                  pySpace).length + 1 +
                (r3.takeWhile (fun c => c ≠ ')')).length) = ')' :: r4 := by
              rw [← List.drop_drop, d2]
              exact e2
            have d4 : cs.drop (("function ".toList ++ name).length +
                ((cs.drop ("function ".toList ++ name).length).takeWhile
                  pySpace).length + 1 +
                (r3.takeWhile (fun c => c ≠ ')')).length + 1) = r4 := by
              rw [← List.drop_drop, d3, List.drop_succ_cons, List.drop_zero]
            have d5 : cs.drop (("function ".toList ++ name).length +
                ((cs.drop ("function ".toList ++ name).length).takeWhile
                  pySpace).length + 1 +
                (r3.takeWhile (fun c => c ≠ ')')).length + 1 +
                (r4.takeWhile pySpace).length) = '{' :: t5 := by
              rw [← List.drop_drop, d4]
              exact e3
            have hlen : len - 1 = ("function ".toList ++ name).length +
                ((cs.drop ("function ".toList ++ name).length).takeWhile
                  pySpace).length + 1 +
                (r3.takeWhile (fun c => c ≠ ')')).length + 1 +
                (r4.takeWhile pySpace).length := by omega
            rw [hlen, d5]
            rfl

theorem findBodyStart_head : ∀ (cs name : List Char) (start : Nat),
    findBodyStart cs name = some start → (cs.drop start).head? = some '{'
  | [], name, start, h => by
    rw [findBodyStart, Option.map_eq_some'] at h
    obtain ⟨len, hm, hstart⟩ := h
    subst hstart
    exact (matchBodyPatternAt_head [] name len hm).2
  | c :: rest, name, start, h => by
    rw [findBodyStart] at h
    cases hm : matchBodyPatternAt (c :: rest) name with
    | some len =>
      rw [hm, Option.some.injEq] at h
      subst h
      exact (matchBodyPatternAt_head (c :: rest) name len hm).2
    | none =>
      rw [hm] at h
      rw [Option.map_eq_some'] at h
      obtain ⟨s0, hs0, hstart⟩ := h
      subst hstart
      rw [List.drop_succ_cons]
      exact findBodyStart_head rest name s0 hs0

theorem extract_function_body_some (content name body : List Char)
    (h : extract_function_body content name = some body) :
    (∃ mid, body = '{' :: (mid ++ ['}'])) ∧
    body.count '{' = body.count '}' ∧
    ∀ j, 0 < j → j < body.length →
      (body.take j).count '}' < (body.take j).count '{' := by
  rw [extract_function_body] at h
  split at h <;> try exact Option.noConfusion h
  next start hf =>
    split at h <;> try exact Option.noConfusion h
    next i hb =>
      rw [Option.some.injEq] at h
      have hhead := findBodyStart_head content name start hf
      rw [List.head?_eq_some_iff] at hhead
      obtain ⟨rest, hrest⟩ := hhead
      have hdrop1 : content.drop (start + 1) = rest := by
        rw [← List.drop_drop, hrest, List.drop_succ_cons, List.drop_zero]
      rw [hdrop1] at hb
      obtain ⟨h1i, h2i, ⟨pre, hpre⟩, h4i, h5i⟩ := braceScan_some rest 1 i le_rfl hb
      have hbody : body = '{' :: rest.take i := by
        rw [← h, hrest, List.take_succ_cons]
      subst hbody
      refine ⟨⟨pre, by rw [hpre]⟩, ?_, ?_⟩
      · simp only [List.count_cons, hpre] at h4i ⊢
        simp at h4i ⊢
        omega
      · intro j hj0 hjlen
        match j with
        | j0 + 1 =>
          simp only [List.length_cons, List.length_take] at hjlen
          have hj0i : j0 < i := by omega
          have := h5i j0 hj0i
          simp only [List.take_succ_cons, List.take_take, List.count_cons]
          have hmin : min j0 i = j0 := by omega
          rw [hmin]
          simp
          omega

theorem extract_function_body_none_iff (content name : List Char) :
    extract_function_body content name = none ↔
      findBodyStart content name = none ∨
      ∃ start, findBodyStart content name = some start ∧
        ∀ i ≤ (content.drop (start + 1)).length,
          ((content.drop (start + 1)).take i).count '}' <
            1 + ((content.drop (start + 1)).take i).count '{' := by
  rw [extract_function_body]
  cases hf : findBodyStart content name with
  | none => simp [hf]
  | some start =>
    simp only [hf, Option.some.injEq, reduceCtorEq, false_or]
    cases hb : braceScan (content.drop (start + 1)) 1 with
    | none =>
      simp only [hb, true_iff]
      refine ⟨start, rfl, ?_⟩
      exact (braceScan_none_iff (content.drop (start + 1)) 1 le_rfl).mp hb
    | some i =>
      simp only [hb, reduceCtorEq, false_iff, not_exists, not_and]
      intro s hs
      subst hs
      intro hall
      obtain ⟨h1i, h2i, _, h4i, _⟩ :=
        braceScan_some (content.drop (start + 1)) 1 i le_rfl hb
      have := hall i h2i
      omega

theorem mem_childNames_all_funcs {g : CallGraph} {f c : String}
    (h : c ∈ childNames g f) : c ∈ g.all_funcs := by
  simp only [childNames, List.mem_filter, Bool.and_eq_true, decide_eq_true_eq] at h
  exact h.2.1

theorem card_measure_lt {A v : Finset String} {f c : String}
    (hc : c ∈ A) (hf : f ∉ v) :
    ((insert c A) \ (insert f v)).card < ((insert f A) \ v).card := by
  rw [Finset.insert_eq_self.mpr hc]
  apply Finset.card_lt_card
  rw [Finset.ssubset_def]
  constructor
  · intro x hx
    simp only [Finset.mem_sdiff, Finset.mem_insert] at hx ⊢
    tauto
  · intro hsub
    have hmem : f ∈ (insert f A) \ v := by
      simp [Finset.mem_sdiff, Finset.mem_insert, hf]
    have hf2 := hsub hmem
    simp only [Finset.mem_sdiff, Finset.mem_insert] at hf2
    tauto

theorem sort_pair {a b : String} (hab : a ≤ b) (hne : a ≠ b) :
    ({a, b} : Finset String).sort (· ≤ ·) = [a, b] := by
  rw [Finset.sort_insert]
  · rw [Finset.sort_singleton]
  · intro x hx
    rw [Finset.mem_singleton] at hx
    subst hx
    exact hab
  · rw [Finset.mem_singleton]
    exact hne

theorem build_call_tree_stub {g : CallGraph} {f : String} {v : Finset String}
    (h : f ∈ v) : build_call_tree g f v = CallTree.mk f [] [] := by
  rw [build_call_tree]
  simp [h]

theorem build_call_tree_expand {g : CallGraph} {f : String} {v : Finset String}
    (h : f ∉ v) :
    build_call_tree g f v =
      CallTree.mk f ((domCallsGet g f).sort (· ≤ ·))
        ((childNames g f).map (fun c => build_call_tree g c (insert f v))) := by
  rw [build_call_tree, if_neg h]
  exact congrArg _ (List.attach_map_val (childNames g f)
    (fun c => build_call_tree g c (insert f v)))

theorem treeDepth_mk (f : String) (d : List String) (cs : List CallTree) :
    treeDepth (CallTree.mk f d cs) = 1 + (cs.map treeDepth).foldr max 0 := by
  rw [treeDepth]
  rw [List.attach_map_val cs treeDepth]

theorem flatten_tree_mk (f : String) (d : List String) (cs : List CallTree) :
    flatten_tree (CallTree.mk f d cs) =
      d.toFinset ∪ (cs.map flatten_tree).foldr (· ∪ ·) ∅ := by
  rw [flatten_tree]
  rw [List.attach_map_val cs flatten_tree]

theorem calc_dom_distance_mk (f : String) (d : List String)
    (cs : List CallTree) :
    calc_dom_distance (CallTree.mk f d cs) =
      (if d ≠ [] then 0
       else if cs.isEmpty then ⊤
       else 1 + (cs.map calc_dom_distance).foldr min ⊤) := by
  rw [calc_dom_distance]
  rw [List.attach_map_val cs calc_dom_distance]

theorem extract_all_paths_mk (f : String) (d : List String)
    (cs : List CallTree) (cur : List String) :
    extract_all_paths (CallTree.mk f d cs) cur =
      (if d ≠ [] then [cur ++ [f]] else []) ++
        (cs.map (fun c => extract_all_paths c (cur ++ [f]))).flatten := by
  rw [extract_all_paths]
  rw [List.attach_map_val cs (fun c => extract_all_paths c (cur ++ [f]))]

theorem foldr_max_le {l : List ℕ} {m : ℕ} (h : ∀ x ∈ l, x ≤ m) :
    l.foldr max 0 ≤ m := by
  induction l with
  | nil => simp
  | cons x xs ih =>
    simp only [List.foldr_cons]
    have h1 := h x (by simp)
    have h2 : ∀ y ∈ xs, y ≤ m := fun y hy => h y (by simp [hy])
    have := ih h2
    omega

theorem treeDepth_build_le (g : CallGraph) (f : String) (v : Finset String) :
    treeDepth (build_call_tree g f v) ≤
      ((insert f g.all_funcs) \ v).card + 1 := by
  by_cases hv : f ∈ v
  · rw [build_call_tree_stub hv, treeDepth_mk]
    simp
  · rw [build_call_tree_expand hv, treeDepth_mk]
    have hM : 1 ≤ ((insert f g.all_funcs) \ v).card := by
      apply Finset.card_pos.mpr
      exact ⟨f, by simp [Finset.mem_sdiff, hv]⟩
    have hbound : ∀ x ∈ ((childNames g f).map
        (fun c => build_call_tree g c (insert f v))).map treeDepth,
        x ≤ ((insert f g.all_funcs) \ v).card := by
      intro x hx
      rw [List.map_map, List.mem_map] at hx
      obtain ⟨c, hc, rfl⟩ := hx
      have hrec := treeDepth_build_le g c (insert f v)
      have hlt := card_measure_lt (mem_childNames_all_funcs hc) hv
      simp only [Function.comp_apply] at *
      omega
    have := foldr_max_le hbound
    omega
termination_by ((insert f g.all_funcs) \ v).card
decreasing_by exact card_measure_lt (mem_childNames_all_funcs hc) hv

theorem dictGetD_insert {α : Type} (m : List (String × α)) (k k' : String)
    (v : α) (dflt : α) :
    dictGetD (dictInsert m k v) k' dflt =
      if k = k' then v else dictGetD m k' dflt := by
  induction m with
  | nil => simp [dictInsert, dictGetD]
  | cons p rest ih =>
    obtain ⟨k0, v0⟩ := p
    by_cases h0 : k0 = k
    · subst h0
      simp only [dictInsert, if_pos rfl, dictGetD]
      by_cases hk : k0 = k'
      · subst hk
        simp
      · simp [hk]
    · simp only [dictInsert, if_neg h0, dictGetD]
      by_cases hk : k0 = k'
      · subst hk
        have : ¬k = k0 := fun h => h0 h.symm
        simp [this]
      · simp [hk, ih]

theorem dictFind_insert_ne {α : Type} (m : List (String × α)) (k k' : String)
    (v : α) (h : k ≠ k') :
    dictFind (dictInsert m k v) k' = dictFind m k' := by
  induction m with
  | nil => simp [dictInsert, dictFind, h]
  | cons p rest ih =>
    obtain ⟨k0, v0⟩ := p
    by_cases h0 : k0 = k
    · subst h0
      simp only [dictInsert, if_pos rfl, dictFind, if_neg h]
    · simp only [dictInsert, if_neg h0, dictFind]
      by_cases hk : k0 = k'
      · simp [hk]
      · simp [hk, ih]

theorem graphAddFunc_all_mono {ec : List Char → Finset String}
    {content : List Char} {g : CallGraph} {fn fn2 : String}
    (h : fn2 ∈ g.all_funcs) : fn2 ∈ (graphAddFunc ec content g fn).all_funcs := by
  simp only [graphAddFunc]
  split <;> simp [Finset.mem_insert, h]

theorem graphAddFunc_all_self (ec : List Char → Finset String)
    (content : List Char) (g : CallGraph) (fn : String) :
    fn ∈ (graphAddFunc ec content g fn).all_funcs := by
  simp only [graphAddFunc]
  split <;> simp [Finset.mem_insert]

theorem graphAddFunc_calls_none {ec : List Char → Finset String}
    {content : List Char} {g : CallGraph} {fn fname : String}
    (hb : extract_function_body content fname.toList = none)
    (hc : dictFind g.calls fname = none) :
    dictFind (graphAddFunc ec content g fn).calls fname = none := by
  simp only [graphAddFunc]
  split
  · exact hc
  · next body hbody =>
    by_cases hfn : fn = fname
    · subst hfn
      rw [hbody] at hb
      exact Option.noConfusion hb
    · rw [dictFind_insert_ne _ _ _ _ hfn]
      exact hc

theorem graphAddFunc_dom_calls_none {ec : List Char → Finset String}
    {content : List Char} {g : CallGraph} {fn fname : String}
    (hb : extract_function_body content fname.toList = none)
    (hc : dictFind g.dom_calls fname = none) :
    dictFind (graphAddFunc ec content g fn).dom_calls fname = none := by
  simp only [graphAddFunc]
  split
  · exact hc
  · next body hbody =>
    by_cases hfn : fn = fname
    · subst hfn
      rw [hbody] at hb
      exact Option.noConfusion hb
    · rw [dictFind_insert_ne _ _ _ _ hfn]
      exact hc

theorem foldl_graphAdd_all_mono {ec : List Char → Finset String}
    {content : List Char} {fname : String} :
    ∀ (names : List String) (g : CallGraph), fname ∈ g.all_funcs →
      fname ∈ (names.foldl (graphAddFunc ec content) g).all_funcs
  | [], g, h => h
  | n :: rest, g, h =>
    foldl_graphAdd_all_mono rest _ (graphAddFunc_all_mono h)

theorem foldl_graphAdd_all_mem {ec : List Char → Finset String}
    {content : List Char} {fname : String} :
    ∀ (names : List String) (g : CallGraph), fname ∈ names →
      fname ∈ (names.foldl (graphAddFunc ec content) g).all_funcs := by
  intro names
  induction names with
  | nil => intro g h; exact absurd h (by simp)
  | cons n rest ih =>
    intro g h
    rw [List.mem_cons] at h
    rcases h with h | h
    · subst h
      exact foldl_graphAdd_all_mono rest _ (graphAddFunc_all_self ec content g fname)
    · exact ih _ h

theorem foldl_graphAdd_calls_none {ec : List Char → Finset String}
    {content : List Char} {fname : String}
    (hb : extract_function_body content fname.toList = none) :
    ∀ (names : List String) (g : CallGraph),
      dictFind g.calls fname = none ∧ dictFind g.dom_calls fname = none →
      dictFind ((names.foldl (graphAddFunc ec content) g)).calls fname = none ∧
      dictFind ((names.foldl (graphAddFunc ec content) g)).dom_calls fname = none
  | [], g, h => h
  | n :: rest, g, h =>
    foldl_graphAdd_calls_none hb rest _
      ⟨graphAddFunc_calls_none hb h.1, graphAddFunc_dom_calls_none hb h.2⟩

theorem build_graph_missing_aux {ec : List Char → Finset String}
    {fname : String} :
    ∀ (files : List (List Char)) (g : CallGraph),
      (∀ content ∈ files, extract_function_body content fname.toList = none) →
      (dictFind g.calls fname = none ∧ dictFind g.dom_calls fname = none) →
      dictFind (files.foldl (fun g c => buildGraphFile ec c g) g).calls
          fname = none ∧
        dictFind (files.foldl (fun g c => buildGraphFile ec c g) g).dom_calls
          fname = none
  | [], _, _, hg => hg
  | c :: rest, g, hnone, hg =>
    build_graph_missing_aux rest _
      (fun c2 hc2 => hnone c2 (by simp [hc2]))
      (foldl_graphAdd_calls_none (hnone c (by simp)) (findDefNames c) g hg)

theorem build_graph_all_funcs_mem {ec : List Char → Finset String}
    {fname : String} :
    ∀ (files : List (List Char)) (g : CallGraph),
      (∃ content ∈ files, fname ∈ findDefNames content) ∨ fname ∈ g.all_funcs →
      fname ∈ (files.foldl (fun g c => buildGraphFile ec c g) g).all_funcs := by
  intro files
  induction files with
  | nil =>
    intro g h
    rcases h with ⟨c, hc, _⟩ | h
    · exact absurd hc (by simp)
    · exact h
  | cons c rest ih =>
    intro g h
    rcases h with ⟨c2, hc2, hdef⟩ | h
    · rw [List.mem_cons] at hc2
      rcases hc2 with hc2 | hc2
      · subst hc2
        exact ih _ (Or.inr (foldl_graphAdd_all_mem (findDefNames c2) g hdef))
      · exact ih _ (Or.inl ⟨c2, hc2, hdef⟩)
    · exact ih _ (Or.inr (foldl_graphAdd_all_mono (findDefNames c) g h))

theorem dictGetD_leafDomFold (coverage : List (String × Finset String)) :
    ∀ (ps : List (List String)) (m : List (String × Finset String))
      (k : String),
      dictGetD (ps.foldl (leafDomFold coverage) m) k ∅ =
        if ps.any (fun q => q.getLast? == some k) then dictGetD coverage k ∅
        else dictGetD m k ∅
  | [], m, k => by simp
  | q :: rest, m, k => by
    cases hq : q.getLast? with
    | none =>
      rw [List.foldl_cons, dictGetD_leafDomFold coverage rest _ k]
      simp only [List.any_cons, leafDomFold, hq]
      simp
    | some leaf =>
      rw [List.foldl_cons, dictGetD_leafDomFold coverage rest _ k]
      simp only [List.any_cons, leafDomFold, hq]
      by_cases hk : leaf = k
      · subst hk
        rw [dictGetD_insert]
        simp
      · rw [dictGetD_insert, if_neg hk]
        have hlk : (some leaf == some k) = false := by
          simp [hk]
        rw [hlk]
        simp

theorem mem_collect_of_mem_path {paths : List (String × List (List String))}
    {p : List String} {f : String}
    (hp : p ∈ allPathsOf paths) (hf : f ∈ p) :
    f ∈ collect_funcs_in_paths paths := by
  simp only [collect_funcs_in_paths, List.mem_toFinset, List.mem_flatten]
  simp only [allPathsOf, List.mem_flatten] at hp
  exact ⟨p, hp, hf⟩

theorem mem_ast_candidates_iff {paths : List (String × List (List String))}
    {coverage : List (String × Finset String)} {dd : List (String × ℕ)}
    {astF : Finset String} {incl : Bool} {f : String} :
    f ∈ (prepare_solver_input paths coverage dd astF incl).ast_candidates ↔
      f ∈ collect_funcs_in_paths paths ∧ f ∈ astF := by
  simp only [prepare_solver_input]
  rw [Finset.mem_sort]
  exact Finset.mem_inter

theorem path_constraints_eq {paths : List (String × List (List String))}
    {coverage : List (String × Finset String)} {dd : List (String × ℕ)}
    {astF : Finset String} {incl : Bool} :
    (prepare_solver_input paths coverage dd astF incl).path_constraints =
      (allPathsOf paths).map (fun p => p.filter (fun f =>
        f ∈ (prepare_solver_input paths coverage dd astF incl).ast_candidates)) := by
  simp only [prepare_solver_input]

theorem canonicalize_isSome_iff (text : String) :
    (canonicalize_dom_call text).isSome = true ↔
      ∃ p ∈ ALL_DOM_PATTERNS, subStr p text = true := by
  cases hf : ALL_DOM_PATTERNS.find? (fun p => subStr p text) with
  | none =>
    simp only [canonicalize_dom_call, hf]
    rw [List.find?_eq_none] at hf
    constructor
    · intro h
      exact absurd h (by simp)
    · rintro ⟨p, hp, hs⟩
      exact absurd hs (by simpa using hf p hp)
  | some p =>
    have hmem := List.mem_of_find?_eq_some hf
    have hsat := List.find?_some hf
    simp only [canonicalize_dom_call, hf]
    refine iff_of_true ?_ ⟨p, hmem, hsat⟩
    split
    · simp
    · split
      · split <;> simp
      · split <;> simp

/-! ## Claim theorems -/

/-- C5: the Canonicalizer maps `"parentNode.appendChild(x)"` to
`"node.appendChild"`, `"document.createElement('div')"` to
`"document.createElement"`, `"el.focus()"` to `"element.focus"`, and signals
no match for `"someLocalVar.doStuff()"`. -/
theorem claim_c5_canonicalize_examples :
    canonicalize_dom_call "parentNode.appendChild(x)" =
      some "node.appendChild" ∧
    canonicalize_dom_call "document.createElement(\'div\')" =
      some "document.createElement" ∧
    canonicalize_dom_call "el.focus()" = some "element.focus" ∧
    canonicalize_dom_call "someLocalVar.doStuff()" = none :=
  ⟨by decide, by decide, by decide, by decide⟩

/-- C3 counterexample: `"scrollX"` contains the catalog name `scrollX` and no
construction/query method name, yet it canonicalizes to `"element.scroll"`
(the method `scroll` is checked before the globals group), not
`"window.scrollX"` as the claim states. -/
theorem claim_c3_counterexample :
    subStr "scrollX" "scrollX" = true ∧
    (∀ m ∈ DOC_CONSTRUCT_QUERY, subStr m "scrollX" = false) ∧
    canonicalize_dom_call "scrollX" = some "element.scroll" ∧
    canonicalize_dom_call "scrollX" ≠ some "window.scrollX" :=
  ⟨by decide, by decide, by decide, by decide⟩

/-- C3 amended: the catalog is checked in the order methods (construction /
query and node/element methods together), then node/element attributes, then
document/window globals; the first substring match wins (a match exists iff
some catalog entry occurs in the input); a size/scroll global reaches the
`window.` namespace only when no earlier entry matches, e.g. `"pageXOffset"`
canonicalizes to `"window.pageXOffset"`, while `"scrollX"` is captured first
by the method `scroll` and canonicalizes to `"element.scroll"`. -/
theorem claim_c3_amended :
    ALL_DOM_PATTERNS = DOM_METHODS ++ DOM_ATTRIBUTES ++ DOCUMENT_WINDOW_ATTRS ∧
    (∀ text, (canonicalize_dom_call text).isSome = true ↔
      ∃ p ∈ ALL_DOM_PATTERNS, subStr p text = true) ∧
    canonicalize_dom_call "pageXOffset" = some "window.pageXOffset" ∧
    canonicalize_dom_call "scrollX" = some "element.scroll" :=
  ⟨rfl, canonicalize_isSome_iff, by decide, by decide⟩

/-- C4: the DOM distance of a tree is 0 when it has a direct DOM operation,
`⊤` when it has neither direct DOM nor children, and otherwise one more than
the minimum child distance; in particular it is 0 exactly when the direct-DOM
tuple is non-empty. -/
theorem claim_c4_dom_distance : ∀ t : CallTree,
    (calc_dom_distance t =
      if t.direct_dom ≠ [] then 0
      else if t.function_calls.isEmpty then ⊤
      else 1 + ((t.function_calls.map calc_dom_distance).foldr min ⊤)) ∧
    (calc_dom_distance t = 0 ↔ t.direct_dom ≠ []) := by
  intro t
  obtain ⟨f, d, cs⟩ := t
  simp only [CallTree.direct_dom, CallTree.function_calls]
  refine ⟨calc_dom_distance_mk f d cs, ?_⟩
  rw [calc_dom_distance_mk]
  by_cases hd : d = []
  · subst hd
    rw [if_neg (by simp)]
    by_cases hcs : cs.isEmpty
    · rw [if_pos hcs]
      exact iff_of_false (by simp) (by simp)
    · rw [if_neg hcs]
      have hpos : (0 : ℕ∞) < 1 + (cs.map calc_dom_distance).foldr min ⊤ :=
        lt_of_lt_of_le zero_lt_one le_self_add
      exact iff_of_false hpos.ne.symm (by simp)
  · rw [if_pos hd]
    exact iff_of_true rfl hd

/-- C6: serializing a call tree to the cache document and parsing it back
yields the identical tree, and reconstructing a tree from a cache document
and re-serializing reproduces the same document. -/
theorem claim_c6_cache_roundtrip :
    (∀ t : CallTree, CallTree.from_dict (CallTree.to_dict t) = t) ∧
    (∀ d : CacheDoc, CallTree.to_dict (CallTree.from_dict d) = d) :=
  ⟨from_dict_to_dict, to_dict_from_dict⟩

/-- C7: for a function already visited on the current branch,
`build_call_tree` returns a leaf stub (name only, empty direct-DOM tuple, no
children); otherwise every child subtree is built from the same per-branch
visited set (the current set enlarged by the current function only), so
expanding one child never suppresses expansion of the same function inside a
sibling subtree. -/
theorem claim_c7_per_branch_visited :
    (∀ (g : CallGraph) (f : String) (v : Finset String), f ∈ v →
      build_call_tree g f v = CallTree.mk f [] []) ∧
    (∀ (g : CallGraph) (f : String) (v : Finset String), f ∉ v →
      (build_call_tree g f v).function_calls =
        (childNames g f).map (fun c => build_call_tree g c (insert f v))) :=
  ⟨fun _ _ _ h => build_call_tree_stub h,
   fun _ _ _ h => by rw [build_call_tree_expand h, CallTree.function_calls]⟩

/-- C7 witness: in `gSib`, the root `r` has the two children `a` and `b`,
and the shared callee `h` is expanded (with its DOM tuple) inside both
sibling subtrees; a function already on the branch produces a bare stub. -/
theorem claim_c7_witness :
    ("r" ∈ ({"r"} : Finset String) ∧
      build_call_tree gSib "r" {"r"} = CallTree.mk "r" [] []) ∧
    ("r" ∉ (∅ : Finset String) ∧
      (build_call_tree gSib "r" ∅).function_calls =
        [build_call_tree gSib "a" {"r"}, build_call_tree gSib "b" {"r"}]) ∧
    (build_call_tree gSib "a" {"r"}).function_calls =
      [build_call_tree gSib "h" {"r", "a"}] ∧
    (build_call_tree gSib "b" {"r"}).function_calls =
      [build_call_tree gSib "h" {"r", "b"}] ∧
    (build_call_tree gSib "h" {"r", "a"}).direct_dom = ["element.focus"] ∧
    (build_call_tree gSib "h" {"r", "b"}).direct_dom = ["element.focus"] := by
  have hab : ("a" : String) ≤ "b" := by
    rw [String.le_iff_toList_le]
    decide
  have hcnr : childNames gSib "r" = ["a", "b"] := by
    rw [childNames, show callsGet gSib "r" = {"a", "b"} from by decide,
      sort_pair hab (by decide)]
    decide
  have hcna : childNames gSib "a" = ["h"] := by
    rw [childNames, show callsGet gSib "a" = {"h"} from by decide,
      Finset.sort_singleton]
    decide
  have hcnb : childNames gSib "b" = ["h"] := by
    rw [childNames, show callsGet gSib "b" = {"h"} from by decide,
      Finset.sort_singleton]
    decide
  refine ⟨⟨by decide, claim_c7_per_branch_visited.1 gSib "r" {"r"} (by decide)⟩,
    ⟨by decide, ?_⟩, ?_, ?_, ?_, ?_⟩
  · rw [claim_c7_per_branch_visited.2 gSib "r" ∅ (by decide), hcnr]
    rw [show (insert "r" ∅ : Finset String) = {"r"} from by decide]
    rfl
  · rw [claim_c7_per_branch_visited.2 gSib "a" {"r"} (by decide), hcna]
    rw [show (insert "a" {"r"} : Finset String) = {"r", "a"} from by decide]
    rfl
  · rw [claim_c7_per_branch_visited.2 gSib "b" {"r"} (by decide), hcnb]
    rw [show (insert "b" {"r"} : Finset String) = {"r", "b"} from by decide]
    rfl
  · rw [@build_call_tree_expand gSib "h" {"r", "a"} (by decide),
      CallTree.direct_dom,
      show domCallsGet gSib "h" = {"element.focus"} from by decide,
      Finset.sort_singleton]
  · rw [@build_call_tree_expand gSib "h" {"r", "b"} (by decide),
      CallTree.direct_dom,
      show domCallsGet gSib "h" = {"element.focus"} from by decide,
      Finset.sort_singleton]

/-- C9: `build_call_tree` is total (it is a well-defined function of the
graph, root and visited set), and the number of nodes on its longest branch
is bounded: in general by the visited-adjusted measure, and from an empty
visited set at a known function by the number of known functions plus one —
each recursive call strictly enlarges the visited set inside the finite set
of known functions. -/
theorem claim_c9_termination :
    (∀ (g : CallGraph) (f : String) (v : Finset String),
      treeDepth (build_call_tree g f v) ≤
        ((insert f g.all_funcs) \ v).card + 1) ∧
    (∀ (g : CallGraph) (f : String), f ∈ g.all_funcs →
      treeDepth (build_call_tree g f ∅) ≤ g.all_funcs.card + 1) := by
  refine ⟨treeDepth_build_le, fun g f hf => ?_⟩
  have h := treeDepth_build_le g f ∅
  rwa [Finset.insert_eq_self.mpr hf, Finset.sdiff_empty] at h

/-- C9 witness: the bound instantiated on the concrete graph `gSib` at its
known root `r`. -/
theorem claim_c9_witness :
    "r" ∈ gSib.all_funcs ∧
    treeDepth (build_call_tree gSib "r" ∅) ≤ gSib.all_funcs.card + 1 :=
  ⟨by decide, claim_c9_termination.2 gSib "r" (by decide)⟩

/-- C8: a scanned function definition whose body cannot be located anywhere
still has its name recorded in the graph's set of all known functions, but no
entry in the `calls` map and no entry in the `dom_calls` map; graph
construction itself never fails. -/
theorem claim_c8_missing_body
    (files : List (List Char)) (ec : List Char → Finset String)
    (exports : Finset String) (fname : String)
    (hdef : ∃ content ∈ files, fname ∈ findDefNames content)
    (hnone : ∀ content ∈ files,
      extract_function_body content fname.toList = none) :
    fname ∈ (build_graph files ec exports).all_funcs ∧
    dictFind (build_graph files ec exports).calls fname = none ∧
    dictFind (build_graph files ec exports).dom_calls fname = none := by
  have h1 := @build_graph_all_funcs_mem ec fname files
    { exports := exports, all_funcs := ∅, calls := [], dom_calls := [] }
    (Or.inl hdef)
  have h2 := @build_graph_missing_aux ec fname files
    { exports := exports, all_funcs := ∅, calls := [], dom_calls := [] }
    hnone ⟨rfl, rfl⟩
  exact ⟨h1, h2.1, h2.2⟩

/-- C8 witness: in the file `function  foo(){}` the definition scan finds
`foo` (the regex allows `\s+` between `function` and the name), while the
body extractor's pattern (a single literal space) finds no body; `foo` is
recorded in `all_funcs` and absent from both maps. -/
theorem claim_c8_witness :
    "foo" ∈ (build_graph ["function  foo(){}".toList]
      (fun _ => ∅) ∅).all_funcs ∧
    dictFind (build_graph ["function  foo(){}".toList]
      (fun _ => ∅) ∅).calls "foo" = none ∧
    dictFind (build_graph ["function  foo(){}".toList]
      (fun _ => ∅) ∅).dom_calls "foo" = none :=
  claim_c8_missing_body _ _ _ _
    ⟨"function  foo(){}".toList, by decide, by decide⟩ (by decide)

/-- C2 counterexample: for the single path `["r", "t"]` with candidate
functions `{"r"}`, the prepared constraint is `["r"]`, which does not admit
the path's terminal function `t`; and with an empty candidate set (and no DOM
variables) the prepared instance is outright infeasible, so feasibility is
not guaranteed for every constructed instance. -/
theorem claim_c2_counterexample :
    ((prepare_solver_input [("r", [["r", "t"]])] [("r", {"element.focus"})]
        [] {"r"} true).path_constraints = [["r"]] ∧
      ("t" : String) ∉ (["r"] : List String)) ∧
    ¬ feasibleInput (prepare_solver_input [("r", [["r", "t"]])] [] [] ∅ false) := by
  have hast : (prepare_solver_input [("r", [["r", "t"]])]
      [("r", {"element.focus"})] [] {"r"} true).ast_candidates = ["r"] := by
    simp only [prepare_solver_input]
    rw [show collect_funcs_in_paths [("r", [["r", "t"]])] ∩ {"r"} = {"r"}
      from by decide, Finset.sort_singleton]
  have hastB : (prepare_solver_input [("r", [["r", "t"]])] [] [] ∅
      false).ast_candidates = [] := by
    simp only [prepare_solver_input]
    rw [Finset.inter_empty, Finset.sort_empty]
  have hpcB : (prepare_solver_input [("r", [["r", "t"]])] [] [] ∅
      false).path_constraints = [[]] := by
    rw [path_constraints_eq, hastB]
    decide
  refine ⟨⟨?_, by decide⟩, ?_⟩
  · rw [path_constraints_eq, hast]
    decide
  · rintro ⟨sa, sd, hall⟩
    have hc := hall [] (by rw [hpcB]; exact List.mem_singleton_self [])
    rcases hc with ⟨f, hf, _⟩ | ⟨d2, hd2, _⟩
    · exact absurd hf (by simp)
    · simp only [dom_alternatives, List.getLast?_nil] at hd2
      exact absurd hd2 (by simp)

/-- C2 amended: whenever every path in the instance's path dict begins with a
function belonging to `ast_funcs` — which holds at the call site, where every
path starts at its export root and `ast_funcs` is the export-derived set —
each prepared constraint contains that root function, so the covering
constraints are simultaneously satisfiable and the instance is feasible. -/
theorem claim_c2_amended (paths : List (String × List (List String)))
    (coverage : List (String × Finset String)) (dd : List (String × ℕ))
    (ast_funcs : Finset String) (include_dom : Bool)
    (hroot : ∀ p ∈ allPathsOf paths, ∃ f, p.head? = some f ∧ f ∈ ast_funcs) :
    feasibleInput
      (prepare_solver_input paths coverage dd ast_funcs include_dom) := by
  refine ⟨collect_funcs_in_paths paths ∩ ast_funcs, ∅, ?_⟩
  intro c hc
  rw [path_constraints_eq, List.mem_map] at hc
  obtain ⟨p, hp, rfl⟩ := hc
  obtain ⟨f, hhead, hfast⟩ := hroot p hp
  have hfp : f ∈ p := List.mem_of_mem_head? (by rw [hhead]; rfl)
  have hcoll := mem_collect_of_mem_path hp hfp
  have hcand : f ∈ (prepare_solver_input paths coverage dd ast_funcs
      include_dom).ast_candidates := mem_ast_candidates_iff.mpr ⟨hcoll, hfast⟩
  left
  refine ⟨f, ?_, hcand, Finset.mem_inter.mpr ⟨hcoll, hfast⟩⟩
  rw [List.mem_filter]
  exact ⟨hfp, by simpa using hcand⟩

/-- C2 amended witness: the instance built from the single-export path dict
`{r ↦ [[r, t]]}` with `ast_funcs = {r}` satisfies the root condition and is
feasible. -/
theorem claim_c2_amended_witness :
    (∀ p ∈ allPathsOf [("r", [["r", "t"]])],
      ∃ f, p.head? = some f ∧ f ∈ ({"r"} : Finset String)) ∧
    feasibleInput (prepare_solver_input [("r", [["r", "t"]])]
      [("r", {"element.focus"})] [] {"r"} true) := by
  have hroot : ∀ p ∈ allPathsOf [("r", [["r", "t"]])],
      ∃ f, p.head? = some f ∧ f ∈ ({"r"} : Finset String) := by
    intro p hp
    have hp2 : p = ["r", "t"] := by
      simpa [allPathsOf] using hp
    subst hp2
    exact ⟨"r", rfl, by decide⟩
  exact ⟨hroot, claim_c2_amended _ _ _ _ _ hroot⟩

/-- C1 counterexample: in `gCov` the export `r` directly performs
`element.click` and its tree yields the two paths `[r]` and `[r, t]`, whose
flattened coverage is `{element.click, element.focus}`; in the hybrid
instance built from this data the constraint of the path `[r]` (terminal `r`,
direct DOM `{element.click}`) admits the DOM alternatives
`{element.click, element.focus}` — the full flattened coverage, not the
terminal's direct DOM operations. -/
theorem claim_c1_counterexample :
    build_call_tree gCov "r" ∅ =
      CallTree.mk "r" ["element.click"] [CallTree.mk "t" ["element.focus"] []] ∧
    flatten_tree (CallTree.mk "r" ["element.click"]
      [CallTree.mk "t" ["element.focus"] []]) =
      {"element.click", "element.focus"} ∧
    extract_all_paths (CallTree.mk "r" ["element.click"]
      [CallTree.mk "t" ["element.focus"] []]) [] = [["r"], ["r", "t"]] ∧
    (prepare_solver_input [("r", [["r"], ["r", "t"]])]
      [("r", {"element.click", "element.focus"})] [] {"r"}
      true).path_constraints = [["r"], ["r"]] ∧
    dom_alternatives (prepare_solver_input [("r", [["r"], ["r", "t"]])]
      [("r", {"element.click", "element.focus"})] [] {"r"} true) ["r"] =
      {"element.click", "element.focus"} ∧
    domCallsGet gCov "r" = {"element.click"} ∧
    domCallsGet gCov "t" = {"element.focus"} ∧
    ({"element.click", "element.focus"} : Finset String) ≠ {"element.click"} ∧
    ({"element.click", "element.focus"} : Finset String) ≠ {"element.focus"} := by
  have hcnr : childNames gCov "r" = ["t"] := by
    rw [childNames, show callsGet gCov "r" = {"t"} from by decide,
      Finset.sort_singleton]
    decide
  have hcnt : childNames gCov "t" = [] := by
    rw [childNames, show callsGet gCov "t" = ∅ from by decide,
      Finset.sort_empty]
    rfl
  have htree : build_call_tree gCov "r" ∅ =
      CallTree.mk "r" ["element.click"]
        [CallTree.mk "t" ["element.focus"] []] := by
    rw [build_call_tree_expand (by decide),
      show domCallsGet gCov "r" = {"element.click"} from by decide,
      Finset.sort_singleton, hcnr, List.map_cons, List.map_nil,
      build_call_tree_expand (by decide),
      show domCallsGet gCov "t" = {"element.focus"} from by decide,
      Finset.sort_singleton, hcnt, List.map_nil]
  have hast : (prepare_solver_input [("r", [["r"], ["r", "t"]])]
      [("r", {"element.click", "element.focus"})] [] {"r"}
      true).ast_candidates = ["r"] := by
    simp only [prepare_solver_input]
    rw [show collect_funcs_in_paths [("r", [["r"], ["r", "t"]])] ∩ {"r"} =
      {"r"} from by decide, Finset.sort_singleton]
  have hmap : (prepare_solver_input [("r", [["r"], ["r", "t"]])]
      [("r", {"element.click", "element.focus"})] [] {"r"}
      true).leaf_dom_map =
      (allPathsOf [("r", [["r"], ["r", "t"]])]).foldl
        (leafDomFold [("r", {"element.click", "element.focus"})]) [] := by
    simp only [prepare_solver_input, if_true]
  refine ⟨htree, ?_, ?_, ?_, ?_, by decide, by decide, by decide, by decide⟩
  · rw [flatten_tree_mk, List.map_cons, List.map_nil, flatten_tree_mk,
      List.map_nil]
    decide
  · rw [extract_all_paths_mk, List.map_cons, List.map_nil,
      extract_all_paths_mk, List.map_nil]
    decide
  · rw [path_constraints_eq, hast]
    decide
  · have halt : dom_alternatives (prepare_solver_input
        [("r", [["r"], ["r", "t"]])]
        [("r", {"element.click", "element.focus"})] [] {"r"} true) ["r"] =
        dictGetD (prepare_solver_input [("r", [["r"], ["r", "t"]])]
          [("r", {"element.click", "element.focus"})] [] {"r"}
          true).leaf_dom_map "r" ∅ := rfl
    rw [halt, hmap, dictGetD_leafDomFold]
    decide

/-- C1 amended: in hybrid mode a path's constraint is the path filtered to
the AST candidates, and the DOM alternatives admitted for it are looked up
under the LAST element of that filtered constraint (not the original path's
terminal); the map yields the flattened coverage set `coverage.get(k, ∅)`
when `k` is the terminal of some path, and the empty set otherwise — never
the terminal's direct DOM set. -/
theorem claim_c1_amended (paths : List (String × List (List String)))
    (coverage : List (String × Finset String)) (dd : List (String × ℕ))
    (ast_funcs : Finset String) (p : List String)
    (hp : p ∈ allPathsOf paths) :
    (p.filter (fun f => f ∈ (prepare_solver_input paths coverage dd ast_funcs
        true).ast_candidates)) ∈
      (prepare_solver_input paths coverage dd ast_funcs
        true).path_constraints ∧
    dom_alternatives (prepare_solver_input paths coverage dd ast_funcs true)
      (p.filter (fun f => f ∈ (prepare_solver_input paths coverage dd
        ast_funcs true).ast_candidates)) =
      (match (p.filter (fun f => f ∈ (prepare_solver_input paths coverage dd
          ast_funcs true).ast_candidates)).getLast? with
       | none => (∅ : Finset String)
       | some k =>
         if (allPathsOf paths).any (fun q => q.getLast? == some k)
         then dictGetD coverage k ∅ else ∅) := by
  constructor
  · rw [path_constraints_eq]
    exact List.mem_map_of_mem _ hp
  · have hmap : (prepare_solver_input paths coverage dd ast_funcs
        true).leaf_dom_map =
        (allPathsOf paths).foldl (leafDomFold coverage) [] := by
      simp only [prepare_solver_input, if_true]
    cases hlast : (p.filter (fun f => f ∈ (prepare_solver_input paths
        coverage dd ast_funcs true).ast_candidates)).getLast? with
    | none =>
      simp only [dom_alternatives, hlast]
    | some k =>
      simp only [dom_alternatives, hlast, hmap, dictGetD_leafDomFold]
      rfl

/-- C1 amended witness: the amended description instantiated on the concrete
hybrid instance of the counterexample, at the path `[r, t]`. -/
theorem claim_c1_amended_witness :
    (["r", "t"] ∈ allPathsOf [("r", [["r"], ["r", "t"]])]) ∧
    ((["r", "t"].filter (fun f => f ∈ (prepare_solver_input
        [("r", [["r"], ["r", "t"]])]
        [("r", {"element.click", "element.focus"})] [] {"r"}
        true).ast_candidates)) ∈
      (prepare_solver_input [("r", [["r"], ["r", "t"]])]
        [("r", {"element.click", "element.focus"})] [] {"r"}
        true).path_constraints ∧
    dom_alternatives (prepare_solver_input [("r", [["r"], ["r", "t"]])]
      [("r", {"element.click", "element.focus"})] [] {"r"} true)
      (["r", "t"].filter (fun f => f ∈ (prepare_solver_input
        [("r", [["r"], ["r", "t"]])]
        [("r", {"element.click", "element.focus"})] [] {"r"}
        true).ast_candidates)) =
      (match (["r", "t"].filter (fun f => f ∈ (prepare_solver_input
          [("r", [["r"], ["r", "t"]])]
          [("r", {"element.click", "element.focus"})] [] {"r"}
          true).ast_candidates)).getLast? with
       | none => (∅ : Finset String)
       | some k =>
         if (allPathsOf [("r", [["r"], ["r", "t"]])]).any
             (fun q => q.getLast? == some k)
         then dictGetD [("r", {"element.click", "element.focus"})] k ∅
         else ∅)) := by
  have hp : ["r", "t"] ∈ allPathsOf [("r", [["r"], ["r", "t"]])] := by decide
  exact ⟨hp, claim_c1_amended _ _ _ _ _ hp⟩

/-- C10: whenever `extract_function_body` returns a body, the body starts
with the opening brace, ends with the matching closing brace (every proper
non-empty prefix has strictly more opening than closing braces) and is
brace-balanced overall; and it returns no body exactly when the
`function <name>(...){` pattern is absent, or when the braces after the
opening brace never return to balance before the end of the content. -/
theorem claim_c10_extract_body :
    (∀ (content name body : List Char),
      extract_function_body content name = some body →
      (∃ mid, body = '{' :: (mid ++ ['}'])) ∧
      body.count '{' = body.count '}' ∧
      ∀ j, 0 < j → j < body.length →
        (body.take j).count '}' < (body.take j).count '{') ∧
    (∀ (content name : List Char),
      extract_function_body content name = none ↔
        findBodyStart content name = none ∨
        ∃ start, findBodyStart content name = some start ∧
          ∀ i ≤ (content.drop (start + 1)).length,
            ((content.drop (start + 1)).take i).count '}' <
              1 + ((content.drop (start + 1)).take i).count '{') :=
  ⟨extract_function_body_some, extract_function_body_none_iff⟩

/-- C10 witness: the body extracted for `foo` from
`function foo(a) { y(); { } } tail` is `{ y(); { } }`, which satisfies the
brace-shape properties. -/
theorem claim_c10_witness :
    extract_function_body "function foo(a) { y(); { } } tail".toList
      "foo".toList = some "{ y(); { } }".toList ∧
    ((∃ mid, "{ y(); { } }".toList = '{' :: (mid ++ ['}'])) ∧
      "{ y(); { } }".toList.count '{' = "{ y(); { } }".toList.count '}' ∧
      ∀ j, 0 < j → j < "{ y(); { } }".toList.length →
        ("{ y(); { } }".toList.take j).count '}' <
          ("{ y(); { } }".toList.take j).count '{') := by
  have h : extract_function_body "function foo(a) { y(); { } } tail".toList
      "foo".toList = some "{ y(); { } }".toList := by decide
  exact ⟨h, claim_c10_extract_body.1 _ _ _ h⟩

end DomCover
